import Mathlib

/-!
Verification of the `libcli` command-line convenience layer.

The development shallowly embeds the parts of `libcli` (module
`libcli/basecli.py` and its helpers) that the specification talks about:
the help-text normalization pass, the parser tree and its finalization,
the common-options installer, the two-phase parse (pre-parse for
`--verbose`/`--config`, then the full parse), the configuration overlay
pipeline, and the `--print-config` dump.

Python strings are modelled as lists of Unicode code points, Python
dicts as association lists with unique keys kept in insertion order, and
the filesystem as a partial map from paths to parsed TOML documents.
-/

/-- Python strings are modelled as lists of Unicode code points. -/
abbrev Text := List Nat

/-- Code-point model of a Lean string literal. -/
def txt (s : String) : Text := s.toList.map Char.toNat

/-- Model of Python `str.upper` on one character (ASCII letters only). -/
def pyUpper (c : Nat) : Nat := if 97 ≤ c ∧ c ≤ 122 then c - 32 else c

/-- Model of Python `str.lower` on one character (ASCII letters only). -/
def pyLower (c : Nat) : Nat := if 65 ≤ c ∧ c ≤ 90 then c + 32 else c

/-- Model of `text[0].f() + text[1:]`: apply `f` to the first character. -/
def capFirst (f : Nat → Nat) : Text → Text
  | [] => []
  | c :: rest => f c :: rest

/-- Helper for `pyEndsWith`: the first list is a prefix of the second. -/
def startsWithL : Text → Text → Bool
  | [], _ => true
  | _ :: _, [] => false
  | a :: as, b :: bs => if a = b then startsWithL as bs else false

/-- Model of Python `text.endswith(suffix)`. -/
def pyEndsWith (t suff : Text) : Bool := startsWithL suff.reverse t.reverse

/-- Last character of a string, if any. -/
def lastChar : Text → Option Nat
  | [] => none
  | [c] => some c
  | _ :: c :: rest => lastChar (c :: rest)

/-- Code points of `argparse.SUPPRESS` (the string `"==SUPPRESS=="`). -/
def suppressText : Text := txt "==SUPPRESS=="

/-- Shallow embedding of `BaseCLI._normalize_help_text` (basecli.py lines
361-371).  `firstChar` models `self.help_first_char`, `lineEnding` models
`self.help_line_ending`, and `text` models the `str | None` argument:
falsy or sentinel text is returned unchanged; otherwise the line ending is
appended when missing and the first character's case is forced. -/
def normalizeHelpText (firstChar lineEnding : Text) (text : Option Text) : Option Text :=
  match text with
  | none => none
  | some t =>
    if t ≠ [] ∧ t ≠ suppressText then
      let t1 := if lineEnding ≠ [] ∧ pyEndsWith t lineEnding = false then t ++ lineEnding else t
      let t2 :=
        if firstChar = txt "upper" then capFirst pyUpper t1
        else if firstChar = txt "lower" then capFirst pyLower t1
        else t1
      some t2
    else some t

/-- The case-forcing step of `_normalize_help_text`, abstracted over the
`help_first_char` setting. -/
def applyCase (firstChar : Text) (t : Text) : Text :=
  if firstChar = txt "upper" then capFirst pyUpper t
  else if firstChar = txt "lower" then capFirst pyLower t
  else t

theorem pyUpper_idem (c : Nat) : pyUpper (pyUpper c) = pyUpper c := by
  by_cases h : 97 ≤ c ∧ c ≤ 122
  · have h2 : ¬ (97 ≤ c - 32 ∧ c - 32 ≤ 122) := by omega
    simp [pyUpper, h, h2]
    omega
  · simp [pyUpper, h]

theorem pyLower_idem (c : Nat) : pyLower (pyLower c) = pyLower c := by
  by_cases h : 65 ≤ c ∧ c ≤ 90
  · have h2 : ¬ (65 ≤ c + 32 ∧ c + 32 ≤ 90) := by omega
    simp [pyLower, h, h2]
    omega
  · simp [pyLower, h]

theorem capFirst_capFirst (f : Nat → Nat) (hf : ∀ c, f (f c) = f c) (t : Text) :
    capFirst f (capFirst f t) = capFirst f t := by
  cases t with
  | nil => rfl
  | cons c rest => simp [capFirst, hf]

theorem startsWithL_one_append (a : Nat) (l m : Text) (h : l ≠ []) :
    startsWithL [a] (l ++ m) = startsWithL [a] l := by
  cases l with
  | nil => exact absurd rfl h
  | cons b bs => simp [startsWithL]

theorem pyEndsWith_dot_iff (t : Text) : pyEndsWith t [46] = true ↔ lastChar t = some 46 := by
  induction t with
  | nil => simp [pyEndsWith, startsWithL, lastChar]
  | cons c rest ih =>
    cases rest with
    | nil =>
      by_cases hc : (46 : Nat) = c
      · subst hc
        simp [pyEndsWith, startsWithL, lastChar]
      · simp [pyEndsWith, startsWithL, lastChar, hc]
        intro h
        exact hc h.symm
    | cons d rr =>
      have hrev : (d :: rr).reverse ≠ [] := by simp
      have hstep : pyEndsWith (c :: d :: rr) [46] = pyEndsWith (d :: rr) [46] := by
        show startsWithL [46] ((c :: d :: rr).reverse) = startsWithL [46] ((d :: rr).reverse)
        rw [List.reverse_cons]
        exact startsWithL_one_append 46 _ [c] hrev
      rw [hstep, ih]
      simp [lastChar]

theorem lastChar_append_single (t : Text) (x : Nat) : lastChar (t ++ [x]) = some x := by
  induction t with
  | nil => rfl
  | cons c rest ih =>
    cases rest with
    | nil => rfl
    | cons d rr =>
      show lastChar (d :: (rr ++ [x])) = some x
      exact ih

theorem capFirst_lastChar (f : Nat → Nat) (hf : f 46 = 46) (t : Text)
    (h : lastChar t = some 46) : lastChar (capFirst f t) = some 46 := by
  cases t with
  | nil => simp [lastChar] at h
  | cons c rest =>
    cases rest with
    | nil =>
      simp [lastChar] at h
      subst h
      simp [capFirst, lastChar, hf]
    | cons d rr =>
      simp [lastChar] at h ⊢
      simpa [capFirst, lastChar] using h

theorem applyCase_lastChar (fc : Text) (t : Text) (h : lastChar t = some 46) :
    lastChar (applyCase fc t) = some 46 := by
  unfold applyCase
  split
  · exact capFirst_lastChar pyUpper (by decide) t h
  · split
    · exact capFirst_lastChar pyLower (by decide) t h
    · exact h

theorem applyCase_applyCase (fc : Text) (t : Text) :
    applyCase fc (applyCase fc t) = applyCase fc t := by
  unfold applyCase
  split
  · exact capFirst_capFirst pyUpper pyUpper_idem t
  · split
    · exact capFirst_capFirst pyLower pyLower_idem t
    · rfl

theorem txt_dot : txt "." = [46] := rfl

theorem normalizeHelpText_some (fc : Text) (t : Text) (h1 : t ≠ []) (h2 : t ≠ suppressText) :
    normalizeHelpText fc (txt ".") (some t) =
      some (applyCase fc (if pyEndsWith t [46] = false then t ++ [46] else t)) := by
  have hcond : t ≠ [] ∧ t ≠ suppressText := ⟨h1, h2⟩
  by_cases hpe : pyEndsWith t [46] = false
  · simp only [normalizeHelpText, txt_dot, applyCase, if_pos hcond]
    simp [hpe]
  · simp only [normalizeHelpText, txt_dot, applyCase, if_pos hcond]
    simp [hpe]

theorem lastChar_of_branch (t : Text) :
    lastChar (if pyEndsWith t [46] = false then t ++ [46] else t) = some 46 := by
  by_cases he : pyEndsWith t [46] = false
  · rw [if_pos he]
    exact lastChar_append_single t 46
  · rw [if_neg he]
    have : pyEndsWith t [46] = true := by
      cases hb : pyEndsWith t [46] with
      | false => exact absurd hb he
      | true => rfl
    exact (pyEndsWith_dot_iff t).mp this

/-- Claim C10: help-text normalization is idempotent.  For every non-empty
help string other than the suppression sentinel, applying
`_normalize_help_text` (with the default line ending `"."` and any
`help_first_char` setting) twice yields the same result as applying it
once. -/
theorem normalizeHelpText_idempotent (fc : Text) (t : Text) (h1 : t ≠ [])
    (h2 : t ≠ suppressText) :
    normalizeHelpText fc (txt ".") (normalizeHelpText fc (txt ".") (some t)) =
      normalizeHelpText fc (txt ".") (some t) := by
  rw [normalizeHelpText_some fc t h1 h2]
  set t1 := if pyEndsWith t [46] = false then t ++ [46] else t with ht1
  set r := applyCase fc t1 with hr
  have hrlast : lastChar r = some 46 := applyCase_lastChar fc t1 (lastChar_of_branch t)
  have hrne : r ≠ [] := by
    intro h
    rw [h] at hrlast
    simp [lastChar] at hrlast
  have hrsup : r ≠ suppressText := by
    intro h
    rw [h] at hrlast
    have : lastChar suppressText = some 61 := by decide
    rw [this] at hrlast
    simp at hrlast
  rw [normalizeHelpText_some fc r hrne hrsup]
  have hend : pyEndsWith r [46] = true := (pyEndsWith_dot_iff r).mpr hrlast
  have hne : ¬ (pyEndsWith r [46] = false) := by
    rw [hend]
    simp
  rw [if_neg hne, hr, applyCase_applyCase]

/-- Witness for C10 at a concrete help string. -/
theorem normalizeHelpText_idempotent_witness :
    normalizeHelpText (txt "upper") (txt ".")
        (normalizeHelpText (txt "upper") (txt ".") (some (txt "use config `FILE`"))) =
      normalizeHelpText (txt "upper") (txt ".") (some (txt "use config `FILE`")) :=
  normalizeHelpText_idempotent (txt "upper") (txt "use config `FILE`")
    (by decide) (by decide)

/-- Help formatter classes occurring in the code. -/
inductive Formatter
  | helpFormatter
  | colorHelp
  | rawDescription
  | markdown
deriving DecidableEq, Repr

/-- Model of an ordinary `argparse` action: option strings and help text. -/
structure PyAction where
  optionStrings : List Text
  help : Option Text
deriving DecidableEq, Repr

/-- Model of a sub-parser (one subcommand's own parser). -/
structure SubParser where
  prog : Text
  formatter : Formatter
  actions : List PyAction
deriving DecidableEq, Repr

/-- One element of `parser._actions`: either an ordinary action or the
`_SubParsersAction`, which carries the `_choices_actions` pseudo-actions
and the `choices` table of sub-parsers. -/
inductive ParserAction
  | plain (a : PyAction)
  | subs (choicesActions : List PyAction) (choices : List (Text × SubParser))
deriving DecidableEq, Repr

/-- Model of the root parser. -/
structure RootParser where
  prog : Text
  formatter : Formatter
  actions : List ParserAction
deriving DecidableEq, Repr

/-- Formatter replacement done by `_finalize`: the `argparse` default
`HelpFormatter` becomes `ColorHelpFormatter`, or
`RawDescriptionHelpFormatter` when the `NOCOLOR` environment variable is
set; any other formatter class is kept. -/
def replaceFormatter (nocolor : Bool) (f : Formatter) : Formatter :=
  if f = Formatter.helpFormatter then
    (if nocolor then Formatter.rawDescription else Formatter.colorHelp)
  else f

/-- Shallow embedding of `BaseCLI._finalize` (basecli.py lines 534-556):
replace default formatter classes on the root parser and every sub-parser,
and normalize the help text of every action, of every `_choices_actions`
pseudo-action, and of every sub-parser action. -/
def finalize (firstChar lineEnding : Text) (nocolor : Bool) (p : RootParser) : RootParser :=
  { p with
    formatter := replaceFormatter nocolor p.formatter
    actions := p.actions.map fun a =>
      match a with
      | .plain a0 => .plain { a0 with help := normalizeHelpText firstChar lineEnding a0.help }
      | .subs cas chs =>
          .subs (cas.map fun c => { c with help := normalizeHelpText firstChar lineEnding c.help })
            (chs.map fun nsp =>
              (nsp.1,
               { nsp.2 with
                 formatter := replaceFormatter nocolor nsp.2.formatter
                 actions := nsp.2.actions.map fun s =>
                   { s with help := normalizeHelpText firstChar lineEnding s.help } })) }

/-- All help strings of the parser tree that `_finalize` visits. -/
def helpsOf (p : RootParser) : List (Option Text) :=
  p.actions.flatMap fun a =>
    match a with
    | .plain a0 => [a0.help]
    | .subs cas chs =>
        cas.map PyAction.help ++ chs.flatMap fun nsp => nsp.2.actions.map PyAction.help

theorem helpsOf_finalize (fc le : Text) (nc : Bool) (p : RootParser) :
    helpsOf (finalize fc le nc p) = (helpsOf p).map (normalizeHelpText fc le) := by
  simp only [helpsOf, finalize, List.flatMap_map, List.map_flatMap]
  apply List.flatMap_congr
  intro a _
  cases a with
  | plain a0 => rfl
  | subs cas chs =>
    simp only [List.map_append, List.map_map, List.map_flatMap, List.flatMap_map]
    rfl

theorem normalizeHelpText_post (fc : Text) (h0 : Option Text) (t : Text)
    (heq : normalizeHelpText fc (txt ".") h0 = some t) (h1 : t ≠ [])
    (h2 : t ≠ suppressText) :
    pyEndsWith t (txt ".") = true ∧ applyCase fc t = t := by
  cases h0 with
  | none => simp [normalizeHelpText] at heq
  | some t0 =>
    by_cases hc : t0 ≠ [] ∧ t0 ≠ suppressText
    · rw [normalizeHelpText_some fc t0 hc.1 hc.2] at heq
      have ht : t = applyCase fc (if pyEndsWith t0 [46] = false then t0 ++ [46] else t0) := by
        exact (Option.some_inj.mp heq).symm
      have hlast : lastChar t = some 46 := by
        rw [ht]
        exact applyCase_lastChar fc _ (lastChar_of_branch t0)
      constructor
      · rw [txt_dot]
        exact (pyEndsWith_dot_iff t).mpr hlast
      · rw [ht, applyCase_applyCase]
    · have hid : normalizeHelpText fc (txt ".") (some t0) = some t0 := by
        simp only [normalizeHelpText]
        rw [if_neg hc]
      rw [hid] at heq
      have : t0 = t := Option.some_inj.mp heq
      subst this
      rcases not_and_or.mp hc with h | h
      · exact absurd (not_not.mp h) h1
      · exact absurd (not_not.mp h) h2

/-- Claim C6 (amended): `_finalize` applies help normalization to every
help string of the root parser and of every sub-parser; afterwards every
non-empty help string other than the `argparse.SUPPRESS` sentinel ends
with the configured line ending (default `"."`) and its first character is
already forced to the configured case (forcing it again changes nothing). -/
theorem finalize_normalizes_helps (fc : Text) (nc : Bool) (p : RootParser)
    (h : Option Text) (t : Text) (hmem : h ∈ helpsOf (finalize fc (txt ".") nc p))
    (heq : h = some t) (h1 : t ≠ []) (h2 : t ≠ suppressText) :
    pyEndsWith t (txt ".") = true ∧ applyCase fc t = t := by
  rw [helpsOf_finalize] at hmem
  rcases List.mem_map.mp hmem with ⟨h0, _, hh0⟩
  subst heq
  exact normalizeHelpText_post fc h0 t hh0 h1 h2

/-- Concrete parser holding the `-X` option installed by `DebugOption`,
whose help string is `argparse.SUPPRESS`, and a `--spanish` option. -/
def demoParser : RootParser :=
  { prog := txt "prog"
    formatter := Formatter.helpFormatter
    actions :=
      [ParserAction.plain { optionStrings := [txt "-X"], help := some suppressText },
       ParserAction.plain { optionStrings := [txt "--spanish"], help := some (txt "say hello in Spanish") }] }

/-- Counterexample to C6 as stated: the `-X` option's help string is the
suppression sentinel; after finalization it is unchanged and does not end
with the configured line ending `"."`. -/
theorem finalize_suppress_counterexample :
    some suppressText ∈ helpsOf (finalize (txt "upper") (txt ".") false demoParser) ∧
      pyEndsWith suppressText (txt ".") = false := by decide

/-- Witness for C6 (amended) at a concrete parser. -/
theorem finalize_normalizes_helps_witness :
    pyEndsWith (txt "Say hello in Spanish.") (txt ".") = true ∧
      applyCase (txt "upper") (txt "Say hello in Spanish.") = txt "Say hello in Spanish." :=
  finalize_normalizes_helps (txt "upper") false demoParser
    (some (txt "Say hello in Spanish.")) (txt "Say hello in Spanish.")
    (by decide) rfl (by decide) (by decide)

/-- Shallow embedding of `MarkdownHelpAction.__call__`
(actions/markdown.py lines 15-26): assigns the Markdown formatter class to
the parser, prints its help and exits.  The parser-state effect is the
`formatter_class` assignment. -/
def markdownHelpAction (p : RootParser) : RootParser :=
  { p with formatter := Formatter.markdown }

/-- Shallow embedding of `LongMarkdownHelpAction.__call__`
(actions/longmarkdown.py lines 23-39): assigns
`RawDescriptionHelpFormatter` to the root parser and to every sub-parser,
printing each parser's help before exiting. -/
def longMarkdownHelpAction (p : RootParser) : RootParser :=
  { p with
    formatter := Formatter.rawDescription
    actions := p.actions.map fun a =>
      match a with
      | .subs cas chs =>
          .subs cas (chs.map fun nsp =>
            (nsp.1, { nsp.2 with formatter := Formatter.rawDescription }))
      | .plain a0 => .plain a0 }

/-- Model of the runtime actions that only print and exit without
assigning any parser attribute (`BaseHelpAction`, `LongHelpAction`,
`PrintConfigAction`, `PrintUrlAction`, `DebugAction`, `CompletionAction`,
and the `version` action): the parser state is unchanged. -/
def printingOnlyAction (p : RootParser) : RootParser := p

/-- Set every `formatter_class` field of the tree to a fixed value; two
parsers agree under this map exactly when they differ at most in their
formatter fields. -/
def eraseFormatters (p : RootParser) : RootParser :=
  { p with
    formatter := Formatter.helpFormatter
    actions := p.actions.map fun a =>
      match a with
      | .subs cas chs =>
          .subs cas (chs.map fun nsp =>
            (nsp.1, { nsp.2 with formatter := Formatter.helpFormatter }))
      | .plain a0 => .plain a0 }

/-- Counterexample to C7 as stated: invoking the markdown help action on
the finalized parser tree changes the tree (it overwrites the root
parser's `formatter_class`). -/
theorem markdown_mutates_after_finalize :
    markdownHelpAction (finalize (txt "upper") (txt ".") false demoParser) ≠
      finalize (txt "upper") (txt ".") false demoParser := by decide

/-- Claim C7 (amended): after `_finalize`, the only runtime mutation of
the parser tree is done by the markdown help actions, and it only
overwrites `formatter_class` fields (of the root parser, and for the long
variant also of every sub-parser); every other runtime action leaves the
tree untouched. -/
theorem runtime_actions_touch_only_formatters (p : RootParser) :
    eraseFormatters (markdownHelpAction p) = eraseFormatters p ∧
      eraseFormatters (longMarkdownHelpAction p) = eraseFormatters p ∧
      printingOnlyAction p = p := by
  refine ⟨rfl, ?_, rfl⟩
  simp only [eraseFormatters, longMarkdownHelpAction, List.map_map]
  congr 1
  apply List.map_congr_left
  intro a _
  cases a with
  | plain a0 => rfl
  | subs cas chs =>
    simp only [Function.comp_apply, List.map_map]
    rfl

/-- Option strings added to the auxiliary pre-parse parser by
`BaseCLI._add_verbose_option` (basecli.py lines 483-493). -/
def verboseOptionFlags : List Text := [txt "-v", txt "--verbose"]

/-- Option strings added by `BaseCLI._add_config_option` (basecli.py lines
519-532). -/
def configOptionFlags : List Text := [txt "--config"]

/-- Option strings of the auxiliary parser built in
`BaseCLI._update_config_from_file` (basecli.py lines 409-411): the parser
is created with `add_help=False` and receives exactly
`_add_verbose_option` and `_add_config_option`. -/
def auxParserFlags : List Text := verboseOptionFlags ++ configOptionFlags

/-- Shallow embedding of `BaseCLI._add_common_options` (basecli.py lines
444-481): the option strings of each `add_argument` call, in call order.
`hasAddParser` models `self.add_parser` being set (a subcommand registry
exists); `configFileSet` models `self.config.get("config-file")` being
truthy. -/
def addCommonOptionsFlags (hasAddParser configFileSet : Bool) : List (List Text) :=
  [[txt "-X"]] ++
  [[txt "-h", txt "--help"]] ++
  (if hasAddParser then [[txt "-H", txt "--long-help"]] else []) ++
  [[txt "--md-help"]] ++
  verboseOptionFlags :: [txt "-V", txt "--version"] ::
  (if configFileSet then [configOptionFlags] else []) ++
  [[txt "--print-config"], [txt "--print-url"], [txt "--completion"]]

/-- All option strings `_add_common_options` installs on the top-level
parser. -/
def commonFlags (hasAddParser configFileSet : Bool) : List Text :=
  (addCommonOptionsFlags hasAddParser configFileSet).flatten

/-- Counterexample to C5 as stated: for a `BaseCLI` instance without a
subcommand registry and without a `config-file` entry (the minimal CLI of
the module docstring), the installer adds neither `-H` nor `--config`. -/
theorem commonFlags_counterexample :
    ¬ (txt "-H" ∈ commonFlags false false) ∧ ¬ (txt "--config" ∈ commonFlags false false) := by
  decide

/-- Claim C5 (amended): `_add_common_options` always adds the flags `-h`,
`--md-help`, `-v`, `-V`, `--print-config`, `--print-url`, `--completion`
and `-X` to the top-level parser; it adds `-H` exactly when a subcommand
registry exists (`self.add_parser` is set), and `--config` exactly when
the configuration's `config-file` entry is truthy. -/
theorem commonFlags_characterization (hp cf : Bool) (f : Text) :
    f ∈ commonFlags hp cf ↔
      (f ∈ [txt "-X", txt "-h", txt "--help", txt "--md-help", txt "-v", txt "--verbose",
            txt "-V", txt "--version", txt "--print-config", txt "--print-url",
            txt "--completion"] ∨
        (hp = true ∧ (f = txt "-H" ∨ f = txt "--long-help")) ∨
        (cf = true ∧ f = txt "--config")) := by
  cases hp <;> cases cf <;>
    simp [commonFlags, addCommonOptionsFlags, verboseOptionFlags, configOptionFlags] <;>
    tauto

/-- The events of `BaseCLI.__init__` (basecli.py lines 164-172), with
`init_config` (lines 174-208) and the body of `_update_config_from_file`
(lines 406-414) expanded in place. -/
inductive InitEvent
  | setArgv
  | preParse (auxFlags : List Text)
  | initLoggingEv
  | loadConfigFile
  | initParserEv
  | setDefaultsEv
  | addArgumentsEv
  | addCommonOptionsEv
  | finalizeEv
  | autocompleteEv
  | fullParse
deriving DecidableEq, Repr

/-- The order in which `BaseCLI.__init__` performs its steps: the
auxiliary pre-parse (`parser.parse_known_args` over the parser holding
only the verbose and config options) runs inside `init_config`, before
`init_parser`/`add_arguments`/`_add_common_options` build the real
parser's option set, and the full parse runs last. -/
def initTrace : List InitEvent :=
  [InitEvent.setArgv,
   InitEvent.preParse auxParserFlags,
   InitEvent.initLoggingEv,
   InitEvent.loadConfigFile,
   InitEvent.initParserEv,
   InitEvent.setDefaultsEv,
   InitEvent.addArgumentsEv,
   InitEvent.addCommonOptionsEv,
   InitEvent.finalizeEv,
   InitEvent.autocompleteEv,
   InitEvent.fullParse]

/-- Tests whether an init event is a pre-parse. -/
def isPreParse : InitEvent → Bool
  | InitEvent.preParse _ => true
  | _ => false

/-- Claim C1: construction performs exactly one partial pre-parse, with an
auxiliary parser whose option strings are exactly `-v`/`--verbose` and
`--config` and nothing else; it happens before the real parser and its
full option set are built, and the full parse comes only afterwards, as
the last step. -/
theorem preparse_discovers_only_verbose_and_config :
    auxParserFlags = [txt "-v", txt "--verbose", txt "--config"] ∧
      InitEvent.preParse auxParserFlags ∈ initTrace ∧
      initTrace.countP isPreParse = 1 ∧
      initTrace.indexOf (InitEvent.preParse auxParserFlags) <
        initTrace.indexOf InitEvent.initParserEv ∧
      initTrace.indexOf InitEvent.addCommonOptionsEv <
        initTrace.indexOf InitEvent.fullParse ∧
      initTrace.getLast? = some InitEvent.fullParse := by
  decide

/-- Scalar values of the TOML model. -/
inductive TomlV
  | bool (b : Bool)
  | int (n : Int)
  | str (s : Text)
deriving DecidableEq, Repr

/-- One entry of a parsed TOML document: a scalar or a one-level table
(nesting deeper than one table level does not occur in the modelled
configs). -/
inductive TomlItem
  | scalar (v : TomlV)
  | table (t : List (Text × TomlV))
deriving DecidableEq, Repr

/-- A parsed TOML document. -/
abbrev Toml := List (Text × TomlItem)

/-- Python values that occur in the configuration dictionary and in the
parsed-options namespace. -/
inductive Value
  | none
  | bool (b : Bool)
  | int (n : Int)
  | str (s : Text)
  | path (s : Text)
  | err (p : Text)
  | cliRef
  | runCb (cmd : Text)
  | dictV (t : List (Text × TomlV))
deriving DecidableEq, Repr

/-- Python type tags of the modelled values. -/
inductive PyType
  | noneT
  | boolT
  | intT
  | strT
  | pathT
  | errT
  | cliT
  | cbT
  | dictT
deriving DecidableEq, Repr

/-- Python type of a value. -/
def typeOf : Value → PyType
  | Value.none => PyType.noneT
  | Value.bool _ => PyType.boolT
  | Value.int _ => PyType.intT
  | Value.str _ => PyType.strT
  | Value.path _ => PyType.pathT
  | Value.err _ => PyType.errT
  | Value.cliRef => PyType.cliT
  | Value.runCb _ => PyType.cbT
  | Value.dictV _ => PyType.dictT

/-- Association-list lookup (first match; the modelled dicts have unique
keys). -/
def alLookup {α : Type} : List (Text × α) → Text → Option α
  | [], _ => Option.none
  | (k', v) :: rest, k => if k' = k then some v else alLookup rest k

/-- Model of `d[k] = v` on a Python dict: replace in place, else append. -/
def alSet {α : Type} : List (Text × α) → Text → α → List (Text × α)
  | [], k, v => [(k, v)]
  | (k', v') :: rest, k, v =>
    if k' = k then (k', v) :: rest else (k', v') :: alSet rest k v

/-- Model of Python `d.update(e)`. -/
def alUpdate {α : Type} (d e : List (Text × α)) : List (Text × α) :=
  e.foldl (fun acc kv => alSet acc kv.1 kv.2) d

/-- The keys of a dict, in insertion order. -/
def alKeys {α : Type} (d : List (Text × α)) : List Text := d.map Prod.fst

theorem alKeys_cons {α : Type} (kv : Text × α) (rest : List (Text × α)) :
    alKeys (kv :: rest) = kv.1 :: alKeys rest := rfl

theorem alLookup_alSet_self {α : Type} (d : List (Text × α)) (k : Text) (v : α) :
    alLookup (alSet d k v) k = some v := by
  induction d with
  | nil => simp [alSet, alLookup]
  | cons kv rest ih =>
    obtain ⟨k1, v1⟩ := kv
    by_cases h : k1 = k
    · simp [alSet, alLookup, h]
    · simp [alSet, alLookup, h, ih]

theorem alLookup_alSet_ne {α : Type} (d : List (Text × α)) (k q : Text) (v : α)
    (h : q ≠ k) : alLookup (alSet d k v) q = alLookup d q := by
  have hkq : ¬ k = q := fun hh => h hh.symm
  induction d with
  | nil => simp [alSet, alLookup, hkq]
  | cons kv rest ih =>
    obtain ⟨k1, v1⟩ := kv
    by_cases h1 : k1 = k
    · subst h1
      simp [alSet, alLookup, hkq]
    · simp only [alSet, if_neg h1]
      by_cases h2 : k1 = q
      · simp [alLookup, h2]
      · simp [alLookup, h2, ih]

theorem alLookup_eq_none_iff {α : Type} (d : List (Text × α)) (k : Text) :
    alLookup d k = Option.none ↔ k ∉ alKeys d := by
  induction d with
  | nil => simp [alLookup, alKeys]
  | cons kv rest ih =>
    obtain ⟨k1, v1⟩ := kv
    by_cases h : k1 = k
    · simp [alLookup, alKeys, h]
    · simp only [alLookup, if_neg h, alKeys_cons, List.mem_cons, ih]
      constructor
      · rintro hn (h1 | h2)
        · exact h h1.symm
        · exact hn h2
      · intro hn h2
        exact hn (Or.inr h2)

theorem alUpdate_cons {α : Type} (d : List (Text × α)) (kv : Text × α)
    (e : List (Text × α)) : alUpdate d (kv :: e) = alUpdate (alSet d kv.1 kv.2) e := rfl

theorem alLookup_alUpdate_of_none {α : Type} (d e : List (Text × α)) (k : Text)
    (h : alLookup e k = Option.none) : alLookup (alUpdate d e) k = alLookup d k := by
  induction e generalizing d with
  | nil => rfl
  | cons kv rest ih =>
    have hne : kv.1 ≠ k := by
      intro hh
      obtain ⟨k1, v1⟩ := kv
      simp at hh
      simp [alLookup, hh] at h
    have hrest : alLookup rest k = Option.none := by
      obtain ⟨k1, v1⟩ := kv
      simpa [alLookup, hne] using h
    rw [alUpdate_cons, ih _ hrest, alLookup_alSet_ne _ _ _ _ (fun hh => hne hh.symm)]

theorem alLookup_alUpdate_of_some {α : Type} (d e : List (Text × α)) (k : Text) (v : α)
    (hnd : (alKeys e).Nodup) (h : alLookup e k = some v) :
    alLookup (alUpdate d e) k = some v := by
  induction e generalizing d with
  | nil => simp [alLookup] at h
  | cons kv rest ih =>
    rw [alKeys_cons] at hnd
    have hnd1 : kv.1 ∉ alKeys rest := (List.nodup_cons.mp hnd).1
    have hnd2 : (alKeys rest).Nodup := (List.nodup_cons.mp hnd).2
    by_cases hk : kv.1 = k
    · have hv : v = kv.2 := by
        obtain ⟨k1, v1⟩ := kv
        simp at hk
        subst hk
        simp [alLookup] at h
        exact h.symm
      subst hv
      subst hk
      have hrest : alLookup rest kv.1 = Option.none :=
        (alLookup_eq_none_iff rest kv.1).mpr hnd1
      rw [alUpdate_cons, alLookup_alUpdate_of_none _ _ _ hrest, alLookup_alSet_self]
    · have hrest : alLookup rest k = some v := by
        obtain ⟨k1, v1⟩ := kv
        simp at hk
        simpa [alLookup, hk] using h
      rw [alUpdate_cons]
      exact ih _ hnd2 hrest

theorem alKeys_alSet {α : Type} (d : List (Text × α)) (k : Text) (v : α) :
    alKeys (alSet d k v) = if k ∈ alKeys d then alKeys d else alKeys d ++ [k] := by
  induction d with
  | nil => simp [alSet, alKeys]
  | cons kv rest ih =>
    obtain ⟨k1, v1⟩ := kv
    by_cases h : k1 = k
    · subst h
      simp [alSet, alKeys_cons, alKeys]
    · simp only [alSet, if_neg h, alKeys_cons, ih]
      have hkk : ¬ k = k1 := fun hh => h hh.symm
      by_cases hm : k ∈ alKeys rest
      · simp [alKeys_cons, List.mem_cons, hm, hkk]
      · simp [alKeys_cons, List.mem_cons, hm, hkk]

theorem mem_alKeys_alSet {α : Type} (d : List (Text × α)) (k q : Text) (v : α)
    (h : q ∈ alKeys d) : q ∈ alKeys (alSet d k v) := by
  rw [alKeys_alSet]
  by_cases hm : k ∈ alKeys d
  · simpa [hm] using h
  · simp [hm, h]

theorem self_mem_alKeys_alSet {α : Type} (d : List (Text × α)) (k : Text) (v : α) :
    k ∈ alKeys (alSet d k v) := by
  rw [alKeys_alSet]
  by_cases hm : k ∈ alKeys d
  · simp [hm]
  · simp [hm]

theorem mem_alKeys_alUpdate {α : Type} (d e : List (Text × α)) (k : Text)
    (h : k ∈ alKeys d) : k ∈ alKeys (alUpdate d e) := by
  induction e generalizing d with
  | nil => exact h
  | cons kv rest ih =>
    rw [alUpdate_cons]
    exact ih _ (mem_alKeys_alSet _ _ _ _ h)

/-- Decimal rendering of an integer. -/
def intText (n : Int) : Text := txt (toString n)

/-- Parse a non-empty all-digit string as a natural number. -/
def parseDigits : Text → Option Nat
  | [] => Option.none
  | [c] => if 48 ≤ c ∧ c ≤ 57 then some (c - 48) else Option.none
  | c :: rest =>
    if 48 ≤ c ∧ c ≤ 57 then
      (parseDigits rest).map fun n => (c - 48) * 10 ^ rest.length + n
    else Option.none

/-- Model of Python `int()` applied to a string: an optional sign followed
by decimal digits (whitespace and underscore tolerance is outside the
model); a non-numeric string raises, modelled by `none`. -/
def parseIntText : Text → Option Int
  | 45 :: rest => (parseDigits rest).map fun n => -(n : Int)
  | 43 :: rest => (parseDigits rest).map fun n => (n : Int)
  | s => (parseDigits s).map fun n => (n : Int)

/-- Python truthiness of a TOML-derived value. -/
def tomlTruthy : TomlItem → Bool
  | TomlItem.scalar (TomlV.bool b) => b
  | TomlItem.scalar (TomlV.int n) => n != 0
  | TomlItem.scalar (TomlV.str s) => s != []
  | TomlItem.table t => t != []

/-- Model of Python `int()` applied to a TOML-derived value. -/
def pyIntOfToml : TomlItem → Option Int
  | TomlItem.scalar (TomlV.bool b) => some (if b then 1 else 0)
  | TomlItem.scalar (TomlV.int n) => some n
  | TomlItem.scalar (TomlV.str s) => parseIntText s
  | TomlItem.table _ => Option.none

/-- Model of Python `str()` applied to a TOML-derived value.  The exact
rendering of a table is irrelevant to every claim. -/
def pyStrOfToml : TomlItem → Text
  | TomlItem.scalar (TomlV.bool b) => if b then txt "True" else txt "False"
  | TomlItem.scalar (TomlV.int n) => intText n
  | TomlItem.scalar (TomlV.str s) => s
  | TomlItem.table _ => txt "{...}"

/-- Injection of a TOML value into the config-value model, used for file
keys that do not already exist in the config. -/
def tomlItemToValue : TomlItem → Value
  | TomlItem.scalar (TomlV.bool b) => Value.bool b
  | TomlItem.scalar (TomlV.int n) => Value.int n
  | TomlItem.scalar (TomlV.str s) => Value.str s
  | TomlItem.table t => Value.dictV t

/-- Model of the coercion `_type = type(self.config[name]);
config[name] = _type(value)` at basecli.py lines 437-440.  `none` models a
conversion Python raises on: `NoneType(value)` always raises TypeError,
`int` of a non-numeric string raises ValueError, `Path` of a non-string
raises TypeError.  Exception/object-typed existing values cannot occur at
this point of the flow. -/
def coerceValue (existing : Value) (v : TomlItem) : Option Value :=
  match existing with
  | Value.none => Option.none
  | Value.bool _ => some (Value.bool (tomlTruthy v))
  | Value.int _ => (pyIntOfToml v).map Value.int
  | Value.str _ => some (Value.str (pyStrOfToml v))
  | Value.path _ =>
    (match v with
     | TomlItem.scalar (TomlV.str s) => some (Value.path s)
     | _ => Option.none)
  | Value.err _ => Option.none
  | Value.cliRef => Option.none
  | Value.runCb _ => Option.none
  | Value.dictV _ =>
    (match v with
     | TomlItem.table t => some (Value.dictV t)
     | _ => Option.none)

/-- A Python dict of config values. -/
abbrev Config := List (Text × Value)

/-- Coerce one file entry (the body of the loop at lines 437-440). -/
def coerceEntry (cfg : Config) (k : Text) (v : TomlItem) : Option (Text × Value) :=
  match alLookup cfg k with
  | some ex => (coerceValue ex v).map fun w => (k, w)
  | Option.none => some (k, tomlItemToValue v)

/-- The coercion loop over the file dict, preserving entry order; `none`
models an uncaught exception from a coercion. -/
def coerceEntries (cfg : Config) : Toml → Option (List (Text × Value))
  | [] => some []
  | (k, v) :: rest =>
    match coerceEntry cfg k v, coerceEntries cfg rest with
    | some kv, some es => some (kv :: es)
    | _, _ => Option.none

/-- Lines 437-442 of basecli.py: coerce the file dict against the current
config, then `self.config.update(config)`. -/
def mergeFileConfig (cfg : Config) (entries : Toml) : Option Config :=
  (coerceEntries cfg entries).map fun es => alUpdate cfg es

theorem coerceValue_type (ex : Value) (v : TomlItem) (w : Value)
    (h : coerceValue ex v = some w) : typeOf w = typeOf ex := by
  cases ex with
  | none => simp [coerceValue] at h
  | bool b =>
    simp [coerceValue] at h
    rw [← h]
    rfl
  | int n =>
    simp [coerceValue] at h
    obtain ⟨m, _, hw⟩ := h
    rw [← hw]
    rfl
  | str s =>
    simp [coerceValue] at h
    rw [← h]
    rfl
  | path s =>
    cases v with
    | scalar sv =>
      cases sv with
      | bool b => simp [coerceValue] at h
      | int n => simp [coerceValue] at h
      | str s2 =>
        simp [coerceValue] at h
        rw [← h]
        rfl
    | table t => simp [coerceValue] at h
  | err p => simp [coerceValue] at h
  | cliRef => simp [coerceValue] at h
  | runCb c => simp [coerceValue] at h
  | dictV t =>
    cases v with
    | scalar sv => cases sv <;> simp [coerceValue] at h
    | table t2 =>
      simp [coerceValue] at h
      rw [← h]
      rfl

theorem coerceEntry_of_some (cfg : Config) (k : Text) (v : TomlItem) (ex : Value)
    (h : alLookup cfg k = some ex) :
    coerceEntry cfg k v = (coerceValue ex v).map fun w => (k, w) := by
  simp [coerceEntry, h]

theorem coerceEntry_of_none (cfg : Config) (k : Text) (v : TomlItem)
    (h : alLookup cfg k = Option.none) :
    coerceEntry cfg k v = some (k, tomlItemToValue v) := by
  simp [coerceEntry, h]

theorem coerceEntry_key (cfg : Config) (k : Text) (v : TomlItem) (kv : Text × Value)
    (h : coerceEntry cfg k v = some kv) : kv.1 = k := by
  cases hl : alLookup cfg k with
  | some ex =>
    rw [coerceEntry_of_some cfg k v ex hl] at h
    cases hc : coerceValue ex v with
    | none => rw [hc] at h; simp at h
    | some w =>
      rw [hc] at h
      simp at h
      rw [← h]
  | none =>
    rw [coerceEntry_of_none cfg k v hl] at h
    simp at h
    rw [← h]

theorem coerceEntries_keys (cfg : Config) (entries : Toml) (es : List (Text × Value))
    (h : coerceEntries cfg entries = some es) : alKeys es = alKeys entries := by
  induction entries generalizing es with
  | nil =>
    simp [coerceEntries] at h
    subst h
    rfl
  | cons kv rest ih =>
    obtain ⟨k, v⟩ := kv
    simp only [coerceEntries] at h
    cases he : coerceEntry cfg k v with
    | none => rw [he] at h; simp at h
    | some kv2 =>
      cases hr : coerceEntries cfg rest with
      | none => rw [he, hr] at h; simp at h
      | some es2 =>
        rw [he, hr] at h
        simp at h
        subst h
        rw [alKeys_cons, alKeys_cons, coerceEntry_key cfg k v kv2 he, ih es2 hr]

theorem coerceEntries_lookup_some (cfg : Config) (entries : Toml)
    (es : List (Text × Value)) (k : Text) (item : TomlItem)
    (h : coerceEntries cfg entries = some es) (hl : alLookup entries k = some item) :
    ∃ w, coerceEntry cfg k item = some (k, w) ∧ alLookup es k = some w := by
  induction entries generalizing es with
  | nil => simp [alLookup] at hl
  | cons kv rest ih =>
    obtain ⟨k1, v1⟩ := kv
    simp only [coerceEntries] at h
    cases he : coerceEntry cfg k1 v1 with
    | none => rw [he] at h; simp at h
    | some kv2 =>
      cases hr : coerceEntries cfg rest with
      | none => rw [he, hr] at h; simp at h
      | some es2 =>
        rw [he, hr] at h
        simp at h
        subst h
        have hkey : kv2.1 = k1 := coerceEntry_key cfg k1 v1 kv2 he
        by_cases hk : k1 = k
        · subst hk
          have hv : v1 = item := by simpa [alLookup] using hl
          subst hv
          refine ⟨kv2.2, ?_, ?_⟩
          · rw [he, ← hkey]
          · simp [alLookup, hkey]
        · have hrest : alLookup rest k = some item := by
            simpa [alLookup, hk] using hl
          obtain ⟨w, hw1, hw2⟩ := ih es2 hr hrest
          refine ⟨w, hw1, ?_⟩
          have hne : kv2.1 ≠ k := by rw [hkey]; exact hk
          simp [alLookup, hne, hw2]

/-- Claim C9: merging the config file never changes the type of a
pre-existing config key.  When the merge of `_update_config_from_file`
succeeds, every key that was present in the configuration before the
merge has its file value converted to the type of the existing value, so
its type is unchanged. -/
theorem merge_preserves_types (cfg : Config) (entries : Toml) (cfg2 : Config) (k : Text)
    (hnd : (alKeys entries).Nodup) (hm : mergeFileConfig cfg entries = some cfg2)
    (hk : (alLookup cfg k).isSome = true) :
    Option.map typeOf (alLookup cfg2 k) = Option.map typeOf (alLookup cfg k) := by
  simp only [mergeFileConfig] at hm
  cases hce : coerceEntries cfg entries with
  | none => rw [hce] at hm; simp at hm
  | some es =>
    rw [hce] at hm
    simp at hm
    subst hm
    cases hl : alLookup entries k with
    | none =>
      have hes : alLookup es k = Option.none := by
        rw [alLookup_eq_none_iff, coerceEntries_keys cfg entries es hce]
        exact (alLookup_eq_none_iff entries k).mp hl
      rw [alLookup_alUpdate_of_none _ _ _ hes]
    | some item =>
      obtain ⟨w, hw1, hw2⟩ := coerceEntries_lookup_some cfg entries es k item hce hl
      have hndes : (alKeys es).Nodup := by
        rw [coerceEntries_keys cfg entries es hce]
        exact hnd
      rw [alLookup_alUpdate_of_some _ _ _ _ hndes hw2]
      cases hex : alLookup cfg k with
      | none => rw [hex] at hk; simp at hk
      | some ex =>
        have hcv : coerceValue ex item = some w := by
          rw [coerceEntry_of_some cfg k item ex hex] at hw1
          cases hc : coerceValue ex item with
          | none => rw [hc] at hw1; simp at hw1
          | some w2 =>
            rw [hc] at hw1
            simp at hw1
            rw [hw1]
        simp [coerceValue_type ex item w hcv]

/-- Witness for C9 at a concrete config and file. -/
theorem merge_preserves_types_witness :
    Option.map typeOf
        (alLookup (alUpdate [(txt "verbose", Value.int 0), (txt "name", Value.str (txt "x"))]
          [(txt "verbose", Value.int 2), (txt "size", Value.int 5)]) (txt "verbose")) =
      Option.map typeOf
        (alLookup [(txt "verbose", Value.int 0), (txt "name", Value.str (txt "x"))]
          (txt "verbose")) :=
  merge_preserves_types
    [(txt "verbose", Value.int 0), (txt "name", Value.str (txt "x"))]
    [(txt "verbose", TomlItem.scalar (TomlV.str (txt "2"))),
     (txt "size", TomlItem.scalar (TomlV.int 5))]
    (alUpdate [(txt "verbose", Value.int 0), (txt "name", Value.str (txt "x"))]
      [(txt "verbose", Value.int 2), (txt "size", Value.int 5)])
    (txt "verbose") (by decide) (by decide) (by decide)

/-- The base configuration dict seeded by `init_config` (basecli.py lines
182-196). -/
def baseConfig : Config :=
  [(txt "config-file", Value.none), (txt "config-name", Value.none),
   (txt "dist-name", Value.none), (txt "verbose", Value.int 0)]

/-- Lines 198-201 of basecli.py: `base_config.update(self.config)` when
the subclass supplied a config, then `self.config = base_config`. -/
def initConfigSeed (user : Config) : Config :=
  if user ≠ [] then alUpdate baseConfig user else baseConfig

/-- Lines 203-206 of basecli.py: append every key of the merged config
that is not already in `exclude_print_config`. -/
def extendExclude (excl : List Text) (cfg : Config) : List Text :=
  cfg.foldl (fun ex kv => if kv.1 ∈ ex then ex else ex ++ [kv.1]) excl

theorem extendExclude_cons (excl : List Text) (kv : Text × Value) (rest : Config) :
    extendExclude excl (kv :: rest) =
      extendExclude (if kv.1 ∈ excl then excl else excl ++ [kv.1]) rest := rfl

theorem mem_extendExclude_left (excl : List Text) (cfg : Config) (x : Text)
    (h : x ∈ excl) : x ∈ extendExclude excl cfg := by
  induction cfg generalizing excl with
  | nil => exact h
  | cons kv rest ih =>
    rw [extendExclude_cons]
    apply ih
    by_cases hm : kv.1 ∈ excl
    · simpa [hm] using h
    · simp [hm, h]

theorem mem_extendExclude_of_key (excl : List Text) (cfg : Config) (k : Text)
    (h : k ∈ alKeys cfg) : k ∈ extendExclude excl cfg := by
  induction cfg generalizing excl with
  | nil => simp [alKeys] at h
  | cons kv rest ih =>
    rw [extendExclude_cons]
    rcases (by simpa [alKeys_cons] using h : k = kv.1 ∨ k ∈ alKeys rest) with h1 | h2
    · subst h1
      apply mem_extendExclude_left
      by_cases hm : kv.1 ∈ excl
      · simp [hm]
      · simp [hm]
    · exact ih _ h2

/-- Model of `name.replace("-", "_")`. -/
def optName (k : Text) : Text := k.map fun c => if c = 45 then 95 else c

/-- Whether `isinstance(value, (int, str))` holds in Python (`bool` is a
subclass of `int`). -/
def isIntOrStr : Value → Bool
  | Value.int _ => true
  | Value.bool _ => true
  | Value.str _ => true
  | _ => false

/-- Model of Python `str()` of a config or option value.  The exact
rendering of object values is irrelevant to every claim. -/
def pyStrOfValue : Value → Text
  | Value.none => txt "None"
  | Value.bool b => if b then txt "True" else txt "False"
  | Value.int n => intText n
  | Value.str s => s
  | Value.path s => s
  | Value.err p => txt "FileNotFoundError: " ++ p
  | Value.cliRef => txt "<cli>"
  | Value.runCb c => txt "<function run " ++ c ++ txt ">"
  | Value.dictV _ => txt "{...}"

/-- Shallow embedding of the dump loop of `PrintConfigAction.__call__`
(options/printconfig.py lines 39-44): every config key not in
`exclude_print_config` is emitted, with the value taken from the parsed
options when the namespace has the matching attribute, stringified unless
it is an int/str. -/
def printConfigEntries : Config → List Text → Config → Config
  | [], _, _ => []
  | (name, value) :: rest, excl, ns =>
    if name ∈ excl then printConfigEntries rest excl ns
    else
      (name,
        (fun v => if isIntOrStr v then v else Value.str (pyStrOfValue v))
          ((alLookup ns (optName name)).getD value)) :: printConfigEntries rest excl ns

/-- The printed dump: flat, or wrapped under the `config-name` section
(printconfig.py lines 46-47). -/
inductive DumpOut
  | flat (c : Config)
  | wrapped (sectionKey : Value) (c : Config)
deriving DecidableEq, Repr

/-- Shallow embedding of `PrintConfigAction.__call__` as a whole: build
the entries, then wrap them when `config-name` is set. -/
def printConfigOutput (cfg : Config) (excl : List Text) (ns : Config) : DumpOut :=
  match alLookup cfg (txt "config-name") with
  | some Value.none => DumpOut.flat (printConfigEntries cfg excl ns)
  | some v => DumpOut.wrapped v (printConfigEntries cfg excl ns)
  | Option.none => DumpOut.flat (printConfigEntries cfg excl ns)

theorem base_keys_in_seed (user : Config) (k : Text) (hk : k ∈ alKeys baseConfig) :
    k ∈ alKeys (initConfigSeed user) := by
  unfold initConfigSeed
  split
  · exact mem_alKeys_alUpdate _ _ _ hk
  · exact hk

/-- Claim C4: the `--print-config` dump contains exactly the config keys
not in the exclusion list (each excluded key is omitted, every other
config key appears), and after `init_config` the exclusion list always
contains the four fixed base keys. -/
theorem printConfig_dump_keys (cfg : Config) (excl : List Text) (ns : Config) (k : Text)
    (user : Config) (excl0 : List Text) :
    (k ∈ alKeys (printConfigEntries cfg excl ns) ↔ (k ∈ alKeys cfg ∧ k ∉ excl)) ∧
      (txt "config-file" ∈ extendExclude excl0 (initConfigSeed user) ∧
       txt "config-name" ∈ extendExclude excl0 (initConfigSeed user) ∧
       txt "dist-name" ∈ extendExclude excl0 (initConfigSeed user) ∧
       txt "verbose" ∈ extendExclude excl0 (initConfigSeed user)) := by
  refine ⟨?_, ?_, ?_, ?_, ?_⟩
  · induction cfg with
    | nil => simp [printConfigEntries, alKeys]
    | cons kv rest ih =>
      obtain ⟨name, value⟩ := kv
      by_cases he : name ∈ excl
      · by_cases hk : k = name
        · subst hk
          simp [printConfigEntries, he, alKeys_cons, ih]
        · simp only [printConfigEntries, if_pos he, alKeys_cons, List.mem_cons, ih]
          constructor
          · rintro ⟨hm, hn⟩
            exact ⟨Or.inr hm, hn⟩
          · rintro ⟨hm | hm, hn⟩
            · exact absurd hm hk
            · exact ⟨hm, hn⟩
      · by_cases hk : k = name
        · subst hk
          simp [printConfigEntries, he, alKeys_cons, ih]
        · simp only [printConfigEntries, if_neg he, alKeys_cons, List.mem_cons, ih]
          constructor
          · rintro (hm | ⟨hm, hn⟩)
            · exact absurd hm hk
            · exact ⟨Or.inr hm, hn⟩
          · rintro ⟨hm | hm, hn⟩
            · exact absurd hm hk
            · exact Or.inr ⟨hm, hn⟩
  · exact mem_extendExclude_of_key _ _ _ (base_keys_in_seed user _ (by decide))
  · exact mem_extendExclude_of_key _ _ _ (base_keys_in_seed user _ (by decide))
  · exact mem_extendExclude_of_key _ _ _ (base_keys_in_seed user _ (by decide))
  · exact mem_extendExclude_of_key _ _ _ (base_keys_in_seed user _ (by decide))

/-- Shallow embedding of `BaseCLI._update_config_from_options` (basecli.py
lines 570-575): every config key not in `exclude_print_config` is
overwritten with the matching option attribute (hyphens replaced by
underscores) when the options namespace has it; an excluded key keeps its
value.  The in-place value assignments of the Python loop are modelled by
rebuilding the dict in order. -/
def updateConfigFromOptions : Config → List Text → Config → Config
  | [], _, _ => []
  | (name, value) :: rest, excl, ns =>
    (name,
      if name ∈ excl then value
      else (alLookup ns (optName name)).getD value) :: updateConfigFromOptions rest excl ns

theorem updateOpts_lookup_excl (cfg : Config) (excl : List Text) (ns : Config) (k : Text)
    (hk : k ∈ excl) :
    alLookup (updateConfigFromOptions cfg excl ns) k = alLookup cfg k := by
  induction cfg with
  | nil => rfl
  | cons kv rest ih =>
    obtain ⟨name, value⟩ := kv
    by_cases hn : name = k
    · subst hn
      simp [updateConfigFromOptions, alLookup, hk]
    · simp [updateConfigFromOptions, alLookup, hn, ih]

theorem updateOpts_lookup_not_excl (cfg : Config) (excl : List Text) (ns : Config)
    (k : Text) (v : Value) (hk : k ∉ excl) (hv : alLookup cfg k = some v) :
    alLookup (updateConfigFromOptions cfg excl ns) k =
      some ((alLookup ns (optName k)).getD v) := by
  induction cfg with
  | nil => simp [alLookup] at hv
  | cons kv rest ih =>
    obtain ⟨name, value⟩ := kv
    by_cases hn : name = k
    · subst hn
      have hvv : value = v := by simpa [alLookup] using hv
      subst hvv
      simp [updateConfigFromOptions, alLookup, hk]
    · have hv2 : alLookup rest k = some v := by simpa [alLookup, hn] using hv
      simp [updateConfigFromOptions, alLookup, hn, ih hv2]

theorem mergeFileConfig_lookup_none (cfg : Config) (entries : Toml) (cfg2 : Config)
    (k : Text) (hm : mergeFileConfig cfg entries = some cfg2)
    (hl : alLookup entries k = Option.none) : alLookup cfg2 k = alLookup cfg k := by
  simp only [mergeFileConfig] at hm
  cases hce : coerceEntries cfg entries with
  | none => rw [hce] at hm; simp at hm
  | some es =>
    rw [hce] at hm
    simp at hm
    subst hm
    have hes : alLookup es k = Option.none := by
      rw [alLookup_eq_none_iff, coerceEntries_keys cfg entries es hce]
      exact (alLookup_eq_none_iff entries k).mp hl
    exact alLookup_alUpdate_of_none _ _ _ hes

theorem mergeFileConfig_lookup_some (cfg : Config) (entries : Toml) (cfg2 : Config)
    (k : Text) (item : TomlItem) (hnd : (alKeys entries).Nodup)
    (hm : mergeFileConfig cfg entries = some cfg2) (hl : alLookup entries k = some item) :
    ∃ w, coerceEntry cfg k item = some (k, w) ∧ alLookup cfg2 k = some w := by
  simp only [mergeFileConfig] at hm
  cases hce : coerceEntries cfg entries with
  | none => rw [hce] at hm; simp at hm
  | some es =>
    rw [hce] at hm
    simp at hm
    subst hm
    obtain ⟨w, hw1, hw2⟩ := coerceEntries_lookup_some cfg entries es k item hce hl
    have hndes : (alKeys es).Nodup := by
      rw [coerceEntries_keys cfg entries es hce]
      exact hnd
    exact ⟨w, hw1, alLookup_alUpdate_of_some _ _ _ _ hndes hw2⟩

/-- Counterexample to C3 as stated: the command-line layer does not win
for every key it supplies.  For a plain `BaseCLI` invoked with `-v`, the
parsed options namespace carries `verbose = 1`, yet the final
configuration keeps `verbose = 0`, because `verbose` (a seed-time key) is
in `exclude_print_config` and `_update_config_from_options` skips it. -/
theorem options_overlay_counterexample :
    alLookup
        (updateConfigFromOptions (initConfigSeed []) (extendExclude [] (initConfigSeed []))
          [(txt "cli", Value.cliRef), (txt "verbose", Value.int 1)])
        (txt "verbose") = some (Value.int 0) ∧
      alLookup [(txt "cli", Value.cliRef), (txt "verbose", Value.int 1)] (txt "verbose") =
        some (Value.int 1) ∧
      txt "verbose" ∈ extendExclude [] (initConfigSeed []) := by decide

/-- Claim C3 (amended): the configuration is built in overlay order.  It
is seeded with the four fixed base keys, merged so that any
subclass-supplied entry wins over the seed; values loaded from the config
file then overwrite the seeded values (coerced to the pre-existing type)
while keys the file does not supply are unchanged; finally the parsed
command-line option values overwrite the result, but only for keys not in
`exclude_print_config` (which contains every seed-time key, the four
fixed keys included) - excluded keys keep their file/seed values. -/
theorem config_overlay_order (user : Config) (cfg cfg2 : Config) (entries : Toml)
    (excl : List Text) (ns : Config) (k : Text) (v : Value) (item : TomlItem) :
    (alLookup user k = Option.none → alLookup (initConfigSeed user) k = alLookup baseConfig k) ∧
    ((alKeys user).Nodup → alLookup user k = some v → alLookup (initConfigSeed user) k = some v) ∧
    ((alKeys entries).Nodup → mergeFileConfig cfg entries = some cfg2 →
       alLookup entries k = some item →
       ∃ w, coerceEntry cfg k item = some (k, w) ∧ alLookup cfg2 k = some w) ∧
    (mergeFileConfig cfg entries = some cfg2 → alLookup entries k = Option.none →
       alLookup cfg2 k = alLookup cfg k) ∧
    (k ∈ excl → alLookup (updateConfigFromOptions cfg excl ns) k = alLookup cfg k) ∧
    (k ∉ excl → alLookup cfg k = some v →
       alLookup (updateConfigFromOptions cfg excl ns) k =
         some ((alLookup ns (optName k)).getD v)) := by
  refine ⟨?_, ?_, ?_, ?_, ?_, ?_⟩
  · intro h
    unfold initConfigSeed
    split
    · exact alLookup_alUpdate_of_none _ _ _ h
    · rfl
  · intro hnd h
    unfold initConfigSeed
    split
    · exact alLookup_alUpdate_of_some _ _ _ _ hnd h
    · next hu =>
      have hu2 : user = [] := not_not.mp hu
      rw [hu2] at h
      simp [alLookup] at h
  · intro hnd hm hl
    exact mergeFileConfig_lookup_some cfg entries cfg2 k item hnd hm hl
  · intro hm hl
    exact mergeFileConfig_lookup_none cfg entries cfg2 k hm hl
  · intro hk
    exact updateOpts_lookup_excl cfg excl ns k hk
  · intro hk hv
    exact updateOpts_lookup_not_excl cfg excl ns k v hk hv

/-- Witness for C3 (amended) at concrete layers. -/
theorem config_overlay_order_witness :
    alLookup (initConfigSeed [(txt "config-name", Value.str (txt "myapp"))]) (txt "verbose") =
        alLookup baseConfig (txt "verbose") ∧
      alLookup (initConfigSeed [(txt "config-name", Value.str (txt "myapp"))])
          (txt "config-name") = some (Value.str (txt "myapp")) ∧
      alLookup (updateConfigFromOptions [(txt "size", Value.int 1)] []
            [(txt "size", Value.int 7)]) (txt "size") =
        some ((alLookup [(txt "size", Value.int 7)] (optName (txt "size"))).getD
          (Value.int 1)) := by
  refine ⟨?_, ?_, ?_⟩
  · exact (config_overlay_order [(txt "config-name", Value.str (txt "myapp"))] [] [] [] []
      [] (txt "verbose") Value.none (TomlItem.scalar (TomlV.int 0))).1 (by decide)
  · exact (config_overlay_order [(txt "config-name", Value.str (txt "myapp"))] [] [] [] []
      [] (txt "config-name") (Value.str (txt "myapp"))
      (TomlItem.scalar (TomlV.int 0))).2.1 (by decide) (by decide)
  · exact (config_overlay_order [] [(txt "size", Value.int 1)] [] [] []
      [(txt "size", Value.int 7)] (txt "size") (Value.int 1)
      (TomlItem.scalar (TomlV.int 0))).2.2.2.2.2 (by decide) (by decide)

theorem mem_alKeys_alUpdate_or {α : Type} (d e : List (Text × α)) (k : Text)
    (h : k ∈ alKeys (alUpdate d e)) : k ∈ alKeys d ∨ k ∈ alKeys e := by
  induction e generalizing d with
  | nil => exact Or.inl h
  | cons kv rest ih =>
    rw [alUpdate_cons] at h
    rcases ih _ h with h1 | h2
    · rw [alKeys_alSet] at h1
      by_cases hm : kv.1 ∈ alKeys d
      · rw [if_pos hm] at h1
        exact Or.inl h1
      · rw [if_neg hm] at h1
        rcases List.mem_append.mp h1 with h3 | h4
        · exact Or.inl h3
        · right
          rw [alKeys_cons]
          simp at h4
          simp [h4]
    · right
      rw [alKeys_cons]
      exact List.mem_cons_of_mem _ h2

theorem nodup_alKeys_alSet {α : Type} (d : List (Text × α)) (k : Text) (v : α)
    (h : (alKeys d).Nodup) : (alKeys (alSet d k v)).Nodup := by
  rw [alKeys_alSet]
  by_cases hm : k ∈ alKeys d
  · simpa [hm] using h
  · rw [if_neg hm]
    simp [List.nodup_append, h, hm]

theorem nodup_alKeys_alUpdate {α : Type} (d e : List (Text × α))
    (h : (alKeys d).Nodup) : (alKeys (alUpdate d e)).Nodup := by
  induction e generalizing d with
  | nil => exact h
  | cons kv rest ih =>
    rw [alUpdate_cons]
    exact ih _ (nodup_alKeys_alSet _ _ _ h)

/-- Defaults installed by `BaseCLI.ArgumentParser` (basecli.py lines
239-255): `set_defaults(cli=self)`, the back-reference to the owning CLI
instance. -/
def argumentParserDefaults : Config := [(txt "cli", Value.cliRef)]

/-- Root-parser defaults after `add_subcommand_classes` (basecli.py lines
257-264): `set_defaults(cmd=None)` on top of the `cli` back-reference. -/
def subcommandRootDefaults : Config :=
  alUpdate argumentParserDefaults [(txt "cmd", Value.none)]

/-- Defaults of the sub-parser registered by
`BaseCmd.add_subcommand_parser` (basecmd.py lines 150-162):
`set_defaults(cmd=lambda: self._promote_options(self.run), prog=name)`.
The bound callback is modelled by `Value.runCb name`: calling it promotes
`cli.options` into the command object and invokes the `run` method of the
subcommand registered under `name`. -/
def subcommandDefaults (name : Text) : Config :=
  [(txt "cmd", Value.runCb name), (txt "prog", Value.str name)]

/-- Model of namespace construction for one parse: the root parser
installs its defaults, parsed root-level attributes overwrite them; when a
subcommand is selected, its sub-parser parses into a fresh namespace (its
own defaults overwritten by its parsed attributes), which
`_SubParsersAction.__call__` then copies entry-by-entry over the main
namespace. -/
def parseNamespace (rootDefaults rootParsed : Config)
    (selected : Option (Text × Config)) : Config :=
  match selected with
  | Option.none => alUpdate rootDefaults rootParsed
  | some (name, subParsed) =>
      alUpdate (alUpdate rootDefaults rootParsed)
        (alUpdate (subcommandDefaults name) subParsed)

/-- Claim C8: for every parse of a subcommand-enabled CLI, the parsed
options object carries the back-reference `cli` to the owning BaseCLI
instance; when a subcommand is selected, `cmd` is that subcommand's bound
run callback, and when none is selected `cmd` is `None`.  Parsed
attributes never use the reserved dests `cli`/`cmd` (no option does). -/
theorem options_carry_cli_and_cmd (rootParsed : Config) (selected : Option (Text × Config))
    (hcli : txt "cli" ∉ alKeys rootParsed) (hcmd : txt "cmd" ∉ alKeys rootParsed)
    (hsub : ∀ name sp, selected = some (name, sp) →
      txt "cli" ∉ alKeys sp ∧ txt "cmd" ∉ alKeys sp) :
    alLookup (parseNamespace subcommandRootDefaults rootParsed selected) (txt "cli") =
        some Value.cliRef ∧
      (selected = Option.none →
        alLookup (parseNamespace subcommandRootDefaults rootParsed selected) (txt "cmd") =
          some Value.none) ∧
      (∀ name sp, selected = some (name, sp) →
        alLookup (parseNamespace subcommandRootDefaults rootParsed selected) (txt "cmd") =
          some (Value.runCb name)) := by
  have hroot_cli :
      alLookup (alUpdate subcommandRootDefaults rootParsed) (txt "cli") = some Value.cliRef := by
    rw [alLookup_alUpdate_of_none _ _ _ ((alLookup_eq_none_iff _ _).mpr hcli)]
    decide
  have hroot_cmd :
      alLookup (alUpdate subcommandRootDefaults rootParsed) (txt "cmd") = some Value.none := by
    rw [alLookup_alUpdate_of_none _ _ _ ((alLookup_eq_none_iff _ _).mpr hcmd)]
    decide
  refine ⟨?_, ?_, ?_⟩
  · cases hsel : selected with
    | none => simpa [parseNamespace] using hroot_cli
    | some nsp =>
      obtain ⟨name, sp⟩ := nsp
      obtain ⟨hs1, _⟩ := hsub name sp hsel
      have hnocli : txt "cli" ∉ alKeys (alUpdate (subcommandDefaults name) sp) := by
        intro hmem
        rcases mem_alKeys_alUpdate_or _ _ _ hmem with h1 | h2
        · have hkeys : alKeys (subcommandDefaults name) = [txt "cmd", txt "prog"] := rfl
          rw [hkeys] at h1
          revert h1
          decide
        · exact hs1 h2
      simp only [parseNamespace]
      rw [alLookup_alUpdate_of_none _ _ _ ((alLookup_eq_none_iff _ _).mpr hnocli)]
      exact hroot_cli
  · intro hsel
    subst hsel
    simpa [parseNamespace] using hroot_cmd
  · intro name sp hsel
    subst hsel
    obtain ⟨_, hs2⟩ := hsub name sp rfl
    have hsubcmd :
        alLookup (alUpdate (subcommandDefaults name) sp) (txt "cmd") =
          some (Value.runCb name) := by
      rw [alLookup_alUpdate_of_none _ _ _ ((alLookup_eq_none_iff _ _).mpr hs2)]
      simp [subcommandDefaults, alLookup]
    have hndsub : (alKeys (alUpdate (subcommandDefaults name) sp)).Nodup := by
      apply nodup_alKeys_alUpdate
      have hkeys : alKeys (subcommandDefaults name) = [txt "cmd", txt "prog"] := rfl
      rw [hkeys]
      decide
    simp only [parseNamespace]
    exact alLookup_alUpdate_of_some _ _ _ _ hndsub hsubcmd

/-- Witness for C8 at a concrete parse that selects subcommand `move`. -/
theorem options_carry_cli_and_cmd_witness :
    alLookup (parseNamespace subcommandRootDefaults [(txt "verbose", Value.int 0)]
        (some (txt "move", [(txt "north", Value.bool true)]))) (txt "cli") =
      some Value.cliRef ∧
    alLookup (parseNamespace subcommandRootDefaults [(txt "verbose", Value.int 0)]
        (some (txt "move", [(txt "north", Value.bool true)]))) (txt "cmd") =
      some (Value.runCb (txt "move")) := by
  have h := options_carry_cli_and_cmd [(txt "verbose", Value.int 0)]
    (some (txt "move", [(txt "north", Value.bool true)]))
    (by decide) (by decide)
    (by
      intro name sp heq
      cases heq
      exact ⟨by decide, by decide⟩)
  exact ⟨h.1, h.2.2 _ _ rfl⟩

